import Mathlib

/-!
Shallow embedding of the `object_store` attribute model and S3/GCS wire
translation layer (`src/object_store/src/client/s3.rs` and
`src/object_store/src/attributes.rs`).

External collaborators (`crate::path::Path` and its `Path::parse`, the
`chrono` timestamp type, the crate error enum) are opaque interfaces to
this layer; the embedding parameterizes over them where they are only
passed through or called.
-/

namespace ObjectStore

/-- `chrono::DateTime<Utc>`: an opaque timestamp the translator only
carries through unchanged; modelled as an integer instant. -/
abbrev DateTime := Int

/-- `ListPrefix` (s3.rs): a raw common-prefix string of a listing payload.
The Rust field is named `prefix`; it is called `prefix_` here. -/
structure ListPrefix where
  prefix_ : String
  deriving DecidableEq, Repr

/-- `ListContents` (s3.rs): one raw content entry of a listing payload. -/
structure ListContents where
  key : String
  size : Nat
  last_modified : DateTime
  e_tag : Option String
  deriving DecidableEq, Repr

/-- `ListResponse` (s3.rs): the deserialized listing payload. -/
structure ListResponse where
  contents : List ListContents
  common_prefixes : List ListPrefix
  next_continuation_token : Option String
  deriving DecidableEq, Repr

/-- The effect of serde's `#[serde(default)]` on the three fields of
`ListResponse`: a field absent from the raw payload deserializes to the
type's default, an empty sequence for the two vectors and no token for
the option. `none` stands for an absent field, `some` for a present one. -/
def ListResponse.ofRaw (contents : Option (List ListContents))
    (common_prefixes : Option (List ListPrefix))
    (next_continuation_token : Option (Option String)) : ListResponse :=
  { contents := contents.getD []
    common_prefixes := common_prefixes.getD []
    next_continuation_token := next_continuation_token.getD none }

/-- `ObjectMeta` (crate root, constructed field-by-field in s3.rs):
parameterized over the opaque parsed-path type `P`. -/
structure ObjectMeta (P : Type) where
  location : P
  last_modified : DateTime
  size : Nat
  e_tag : Option String
  version : Option String
  deriving DecidableEq, Repr

/-- `ListResult` (crate root, constructed field-by-field in s3.rs). -/
structure ListResult (P : Type) where
  common_prefixes : List P
  objects : List (ObjectMeta P)
  deriving DecidableEq, Repr

/-- Rust's `iter.map(f).collect::<Result<Vec<_>, E>>()`: apply `f` left to
right, stopping at and returning the first error; `ok` of the list of
results otherwise. -/
def collectResult {E A B : Type} (f : A → Except E B) : List A → Except E (List B)
  | [] => .ok []
  | x :: rest => do
    let y ← f x
    let ys ← collectResult f rest
    pure (y :: ys)

/-- `TryFrom<ListContents> for ObjectMeta` (s3.rs lines 76-88),
parameterized over the opaque `Path::parse` (`parse`). -/
def listContents_tryFrom {E P : Type} (parse : String → Except E P)
    (value : ListContents) : Except E (ObjectMeta P) := do
  let location ← parse value.key
  pure { location := location
         last_modified := value.last_modified
         size := value.size
         e_tag := value.e_tag
         version := none }

/-- `TryFrom<ListResponse> for ListResult` (s3.rs lines 37-58): parse every
common prefix, then translate every content entry, failing on the first
error either stage encounters. -/
def listResponse_tryFrom {E P : Type} (parse : String → Except E P)
    (value : ListResponse) : Except E (ListResult P) := do
  let common_prefixes ← collectResult (fun x => parse x.prefix_) value.common_prefixes
  let objects ← collectResult (listContents_tryFrom parse) value.contents
  pure { common_prefixes := common_prefixes, objects := objects }

/-- The first error `f` yields along a list of inputs. -/
def firstErr {E A B : Type} (f : A → Except E B) : List A → Option E
  | [] => none
  | x :: rest =>
    match f x with
    | .error e => some e
    | .ok _ => firstErr f rest

/-- The first parse error `listResponse_tryFrom` encounters on `value`:
the strings are tried in the order the translator visits them, all
common-prefix strings first, then the content keys. -/
def firstParseError {E P : Type} (parse : String → Except E P)
    (value : ListResponse) : Option E :=
  firstErr parse (value.common_prefixes.map ListPrefix.prefix_
    ++ value.contents.map ListContents.key)

/-- `PartId` (crate multipart module): the opaque acknowledgment token of
one uploaded part. -/
structure PartId where
  content_id : String
  deriving DecidableEq, Repr

/-- `MultipartPart` (s3.rs). -/
structure MultipartPart where
  e_tag : String
  part_number : Nat
  deriving DecidableEq, Repr

/-- `CompleteMultipartUpload` (s3.rs). -/
structure CompleteMultipartUpload where
  part : List MultipartPart
  deriving DecidableEq, Repr

/-- `From<Vec<PartId>> for CompleteMultipartUpload` (s3.rs lines 102-114):
enumerate the parts from 0 and store each content id with its 1-based
position as the part number. -/
def completeMultipartUpload_from (value : List PartId) : CompleteMultipartUpload :=
  { part := value.enum.map fun p =>
      { e_tag := p.2.content_id, part_number := p.1 + 1 } }

/-- `Tag` (s3.rs). -/
structure Tag where
  key : String
  value : String
  deriving DecidableEq, Repr

/-- `TagList` (s3.rs). -/
structure TagList where
  tags : List Tag
  deriving DecidableEq, Repr

/-- `Tagging` (s3.rs). -/
structure Tagging where
  list : TagList
  deriving DecidableEq, Repr

/-- A Rust `HashMap<String, String>` snapshot: its entries in iteration
order. The map invariant (no duplicate keys) is stated where needed. -/
abbrev HashMapSS := List (String × String)

/-- Rust `HashMap::get` on the snapshot: the value of the unique entry
with key `k`, if any. -/
def hmGet (m : HashMapSS) (k : String) : Option String :=
  (m.find? fun kv => kv.1 = k).map Prod.snd

/-- Rust `HashMap::insert k v`: replace the value of an existing entry for
`k` in place, or append a fresh entry. -/
def hmInsert (m : HashMapSS) (k v : String) : HashMapSS :=
  if m.any fun kv => kv.1 = k then
    m.map fun kv => if kv.1 = k then (k, v) else kv
  else
    m ++ [(k, v)]

/-- Rust `iter.collect::<HashMap<String, String>>()`: insert the pairs
left to right into an empty map, a later duplicate key overwriting the
earlier value. -/
def collectHashMap (l : List (String × String)) : HashMapSS :=
  l.foldl (fun m kv => hmInsert m kv.1 kv.2) []

/-- `From<HashMap<String, String>> for Tagging` (s3.rs lines 150-160):
one `Tag` per entry, in the map's iteration order. -/
def tagging_fromMap (value : HashMapSS) : Tagging :=
  { list := { tags := value.map fun kv => { key := kv.1, value := kv.2 } } }

/-- `From<Tagging> for HashMap<String, String>` (s3.rs lines 162-170):
collect the `(key, value)` pairs of the tag list into a map. -/
def hashMap_fromTagging (val : Tagging) : HashMapSS :=
  collectHashMap (val.list.tags.map fun tag => (tag.key, tag.value))

/-- Modelled from the spec: `quick_xml::se::to_string` serialization of one
`Tag`, with the serde renames visible in s3.rs (`PascalCase` fields `Key`,
`Value`); the exact bytes are fixed by the repository's `test_tagging`. -/
def Tag.toXml (t : Tag) : String :=
  "<Tag><Key>" ++ t.key ++ "</Key><Value>" ++ t.value ++ "</Value></Tag>"

/-- Modelled from the spec: serialization of the `TagList` field, renamed
`TagSet` in s3.rs. -/
def TagList.toXml (l : TagList) : String :=
  "<TagSet>" ++ String.join (l.tags.map Tag.toXml) ++ "</TagSet>"

/-- Modelled from the spec: `quick_xml` serialization of a `Tagging` value
under the root element named `root`; `to_string` uses the type's own name
`Tagging`, `to_string_with_root` the name it is given. -/
def taggingBody (root : String) (t : Tagging) : String :=
  "<" ++ root ++ ">" ++ t.list.toXml ++ "</" ++ root ++ ">"

/-- The fixed XML declaration every rendered document starts with. -/
def xmlHeader : String := "<?xml version=\"1.0\" encoding=\"utf-8\"?>"

/-- `Tagging::to_xml_document` (s3.rs lines 173-179): the fixed header
immediately followed by the serialized body under root `Tagging`. -/
def Tagging.to_xml_document (t : Tagging) : String :=
  xmlHeader ++ taggingBody "Tagging" t

/-- `Tagging::to_xml_document_for_azure` (s3.rs lines 181-188): the same
document with the root element renamed `Tags`. -/
def Tagging.to_xml_document_for_azure (t : Tagging) : String :=
  xmlHeader ++ taggingBody "Tags" t

/-- `Attribute` (attributes.rs): the closed-plus-open key taxonomy. -/
inductive Attribute where
  | contentDisposition
  | contentEncoding
  | contentLanguage
  | contentType
  | cacheControl
  | metadata (key : String)
  | providerSpecific (key : String)
  deriving DecidableEq, Repr

/-- Rust `Cow<'static, str>`: either process-lifetime static text or an
owned string. -/
inductive CowStr where
  | borrowed (s : String)
  | owned (s : String)
  deriving DecidableEq, Repr

/-- `Cow::deref`: the contained text, whatever the storage mode. -/
def CowStr.asStr : CowStr → String
  | .borrowed s => s
  | .owned s => s

/-- `AttributeValue` (attributes.rs): a newtype over `Cow<'static, str>`. -/
structure AttributeValue where
  raw : CowStr
  deriving DecidableEq, Repr

/-- `From<&'static str> for AttributeValue`: wraps without copying. -/
def AttributeValue.fromStaticStr (s : String) : AttributeValue :=
  ⟨.borrowed s⟩

/-- `From<String> for AttributeValue`: wraps the owned string. -/
def AttributeValue.fromString (s : String) : AttributeValue :=
  ⟨.owned s⟩

/-- `AsRef<str>` / `Deref` for `AttributeValue`: the contained text. -/
def AttributeValue.asRef (a : AttributeValue) : String :=
  a.raw.asStr

/-- The derived `PartialEq` of `AttributeValue`: Rust compares
`Cow<'static, str>` values by their dereferenced string slices, so two
values are equal exactly when their texts are, whatever the storage mode. -/
def AttributeValue.rustEq (a b : AttributeValue) : Bool :=
  a.asRef == b.asRef

/-- The derived `Hash` of `AttributeValue`: Rust hashes a
`Cow<'static, str>` by hashing the dereferenced string slice, so the hash
is the underlying hasher applied to the contained text. -/
def AttributeValue.rustHash (hasher : String → UInt64) (a : AttributeValue) : UInt64 :=
  hasher a.asRef

/-- The entry list of a `HashMap<Attribute, Option<AttributeValue>>`
snapshot, in iteration order. -/
abbrev AttrEntries := List (Attribute × Option AttributeValue)

/-- `HashMap::get` on the entries: the mapped optional value of the first
entry with the key, if any. -/
def getEntries (l : AttrEntries) (k : Attribute) : Option (Option AttributeValue) :=
  (l.find? fun kv => kv.1 = k).map Prod.snd

/-- `HashMap::insert` on the entries: replace the value of an existing
entry for the key and return the previous value, or append a fresh entry
and return `none`. -/
def insertEntries : AttrEntries → Attribute → Option AttributeValue →
    AttrEntries × Option (Option AttributeValue)
  | [], k, v => ([(k, v)], none)
  | (k0, v0) :: rest, k, v =>
    if k0 = k then ((k0, v) :: rest, some v0)
    else ((k0, v0) :: (insertEntries rest k v).1, (insertEntries rest k v).2)

/-- `HashMap::remove` on the entries: drop the entry with the key and
return its value, or return `none` leaving the entries unchanged. -/
def removeEntries : AttrEntries → Attribute →
    AttrEntries × Option (Option AttributeValue)
  | [], _ => ([], none)
  | (k0, v0) :: rest, k =>
    if k0 = k then (rest, some v0)
    else ((k0, v0) :: (removeEntries rest k).1, (removeEntries rest k).2)

/-- `Attributes` (attributes.rs): a
`HashMap<Attribute, Option<AttributeValue>>`, modelled by its entry list. -/
structure Attributes where
  entries : AttrEntries
  deriving DecidableEq, Repr

/-- The hash-map invariant: no two entries share a key. -/
def Attributes.Wf (a : Attributes) : Prop :=
  (a.entries.map Prod.fst).Nodup

instance (a : Attributes) : Decidable a.Wf :=
  inferInstanceAs (Decidable (List.Nodup _))

/-- `Attributes::new`. -/
def Attributes.new : Attributes := ⟨[]⟩

/-- `Attributes::insert` (attributes.rs lines 128-134): the updated
collection and the previous value for the key, if any. -/
def Attributes.insert (a : Attributes) (key : Attribute) (value : Option AttributeValue) :
    Attributes × Option (Option AttributeValue) :=
  (⟨(insertEntries a.entries key value).1⟩, (insertEntries a.entries key value).2)

/-- `Attributes::get` (attributes.rs lines 137-139). -/
def Attributes.get (a : Attributes) (key : Attribute) : Option (Option AttributeValue) :=
  getEntries a.entries key

/-- `Attributes::remove` (attributes.rs lines 142-144): the updated
collection and the removed value, if any. -/
def Attributes.remove (a : Attributes) (key : Attribute) :
    Attributes × Option (Option AttributeValue) :=
  (⟨(removeEntries a.entries key).1⟩, (removeEntries a.entries key).2)

/-- `Attributes::len` (attributes.rs lines 159-161). -/
def Attributes.len (a : Attributes) : Nat :=
  a.entries.length

/-- `Attributes::is_empty`. -/
def Attributes.isEmpty (a : Attributes) : Bool :=
  a.entries.isEmpty

/-- `Attributes::iter_set_values` (attributes.rs lines 151-155): the
entries whose optional value is set. -/
def Attributes.iterSetValues (a : Attributes) : List (Attribute × AttributeValue) :=
  a.entries.filterMap fun kv => kv.2.map fun v => (kv.1, v)

/-- `FromIterator` for `Attributes` (attributes.rs lines 170-182): insert
the pairs left to right, a later duplicate key overwriting the earlier
value. -/
def Attributes.fromList (l : AttrEntries) : Attributes :=
  l.foldl (fun a kv => (a.insert kv.1 kv.2).1) Attributes.new

/-- The derived `PartialEq` of `Option<AttributeValue>`: equal when both
absent, or both present with text-equal values. -/
def optValRustEq : Option AttributeValue → Option AttributeValue → Bool
  | none, none => true
  | some a, some b => a.rustEq b
  | _, _ => false

/-- The derived `PartialEq` of `Attributes`: Rust `HashMap` equality, same
size and, for every entry of the left map, an entry of the right map at
the same key with an equal value. -/
def Attributes.rustEq (a b : Attributes) : Bool :=
  a.len == b.len && a.entries.all fun kv =>
    match b.get kv.1 with
    | some ov => optValRustEq kv.2 ov
    | none => false

/-! Helper lemmas about `collectResult` and `firstErr`. -/

theorem collectResult_cons {E A B : Type} (f : A → Except E B) (x : A) (l : List A) :
    collectResult f (x :: l) =
      (f x).bind fun y => (collectResult f l).bind fun ys => Except.ok (y :: ys) := rfl

theorem collectResult_ok {E A B : Type} (f : A → Except E B) (g : A → B) :
    ∀ l : List A, (∀ x ∈ l, f x = .ok (g x)) → collectResult f l = .ok (l.map g)
  | [], _ => rfl
  | x :: rest, h => by
    have hx := h x (List.mem_cons_self x rest)
    have ih := collectResult_ok f g rest fun y hy => h y (List.mem_cons_of_mem x hy)
    rw [collectResult_cons, hx, ih]
    rfl

theorem collectResult_error {E A B : Type} (f : A → Except E B) :
    ∀ (l : List A) (e : E), firstErr f l = some e → collectResult f l = .error e
  | [], e, h => by simp [firstErr] at h
  | x :: rest, e, h => by
    rw [collectResult_cons]
    cases hx : f x with
    | error e0 =>
      simp only [firstErr, hx] at h
      cases h
      rfl
    | ok y =>
      have hr : firstErr f rest = some e := by
        simpa only [firstErr, hx] using h
      rw [collectResult_error f rest e hr]
      rfl

theorem collectResult_ok_of_firstErr_none {E A B : Type} (f : A → Except E B) :
    ∀ l : List A, firstErr f l = none → ∃ ys, collectResult f l = .ok ys
  | [], _ => ⟨[], rfl⟩
  | x :: rest, h => by
    cases hx : f x with
    | error e0 => simp [firstErr, hx] at h
    | ok y =>
      have hr : firstErr f rest = none := by
        simpa only [firstErr, hx] using h
      obtain ⟨ys, hys⟩ := collectResult_ok_of_firstErr_none f rest hr
      exact ⟨y :: ys, by rw [collectResult_cons, hx, hys]; rfl⟩

theorem firstErr_append {E A B : Type} (f : A → Except E B) :
    ∀ l1 l2 : List A,
      firstErr f (l1 ++ l2) =
        match firstErr f l1 with
        | some e => some e
        | none => firstErr f l2
  | [], _ => rfl
  | x :: rest, l2 => by
    cases hx : f x with
    | error e0 => simp [firstErr, hx]
    | ok y => simp [firstErr, hx, firstErr_append f rest l2]

theorem firstErr_map {E A B P : Type} (f : A → Except E P) (g : B → A) :
    ∀ l : List B, firstErr f (l.map g) = firstErr (fun x => f (g x)) l
  | [] => rfl
  | x :: rest => by
    cases hx : f (g x) with
    | error e0 => simp [firstErr, hx]
    | ok y => simp [firstErr, hx, firstErr_map f g rest]

theorem firstErr_listContents {E P : Type} (parse : String → Except E P) :
    ∀ l : List ListContents,
      firstErr (listContents_tryFrom parse) l = firstErr (fun c => parse c.key) l
  | [] => rfl
  | c :: rest => by
    cases hx : parse c.key with
    | error e0 => simp [firstErr, listContents_tryFrom, hx]
    | ok y =>
      simp [firstErr, listContents_tryFrom, hx,
        firstErr_listContents parse rest]

theorem listResponse_tryFrom_eq {E P : Type} (parse : String → Except E P)
    (value : ListResponse) :
    listResponse_tryFrom parse value =
      (collectResult (fun x => parse x.prefix_) value.common_prefixes).bind fun cp =>
        (collectResult (listContents_tryFrom parse) value.contents).bind fun objs =>
          Except.ok { common_prefixes := cp, objects := objs } := rfl

/-- C1: if any single content entry's key or any common-prefix string fails
to parse, the whole `ListResponse → ListResult` conversion returns the
first path-parse error the translator encounters (all common-prefix
strings are visited before the content keys) and produces no partial
result: the outcome is an `Except.error`, which carries no `ListResult`. -/
theorem list_translation_fail_fast {E P : Type} (parse : String → Except E P)
    (value : ListResponse) (e : E)
    (h : firstParseError parse value = some e) :
    listResponse_tryFrom parse value = .error e := by
  unfold firstParseError at h
  rw [firstErr_append] at h
  rw [listResponse_tryFrom_eq]
  cases hp : firstErr parse (value.common_prefixes.map ListPrefix.prefix_) with
  | some e1 =>
    rw [hp] at h
    have he : some e1 = some e := h
    obtain rfl : e1 = e := by injection he
    have h1 : firstErr (fun x => parse x.prefix_) value.common_prefixes = some e1 := by
      rw [← firstErr_map parse ListPrefix.prefix_, hp]
    rw [collectResult_error _ _ _ h1]
    rfl
  | none =>
    rw [hp] at h
    have h0 : firstErr (fun x => parse x.prefix_) value.common_prefixes = none := by
      rw [← firstErr_map parse ListPrefix.prefix_, hp]
    obtain ⟨ys, hys⟩ := collectResult_ok_of_firstErr_none _ _ h0
    have h2 : firstErr (listContents_tryFrom parse) value.contents = some e := by
      rw [firstErr_listContents, ← firstErr_map parse ListContents.key]
      exact h
    rw [hys, collectResult_error _ _ _ h2]
    rfl

/-- A path parser that rejects every string: the error carries the raw
input, as the crate's path-parse error does. -/
def failParse : String → Except String String := fun s => Except.error s

theorem list_translation_fail_fast_witness :
    firstParseError failParse
        { contents := [], common_prefixes := [⟨"p"⟩], next_continuation_token := none }
      = some "p" ∧
    listResponse_tryFrom failParse
        { contents := [], common_prefixes := [⟨"p"⟩], next_continuation_token := none }
      = Except.error "p" :=
  ⟨rfl, list_translation_fail_fast failParse _ "p" rfl⟩

/-- C2: when every common-prefix string and content key parses, translation
succeeds with exactly one parsed prefix per input prefix string and one
metadata record per content entry, in input order; each record carries the
parsed key as location, the given size, timestamp and entity tag, and an
always-absent version; absent `contents` or `common_prefixes` payload
fields deserialize to empty sequences, not errors. -/
theorem list_translation_complete {E P : Type} (parse : String → Except E P)
    (pf : String → P) (value : ListResponse)
    (hp : ∀ x ∈ value.common_prefixes, parse x.prefix_ = .ok (pf x.prefix_))
    (hc : ∀ c ∈ value.contents, parse c.key = .ok (pf c.key)) :
    listResponse_tryFrom parse value = .ok
      { common_prefixes := value.common_prefixes.map fun x => pf x.prefix_
        objects := value.contents.map fun c =>
          { location := pf c.key
            last_modified := c.last_modified
            size := c.size
            e_tag := c.e_tag
            version := none } } ∧
    (∀ cp tok, (ListResponse.ofRaw none cp tok).contents = []) ∧
    (∀ cs tok, (ListResponse.ofRaw cs none tok).common_prefixes = []) := by
  refine ⟨?_, fun cp tok => rfl, fun cs tok => rfl⟩
  have h1 := collectResult_ok (fun x : ListPrefix => parse x.prefix_)
      (fun x : ListPrefix => pf x.prefix_) _ hp
  have h2 := collectResult_ok (listContents_tryFrom parse)
      (fun c => ObjectMeta.mk (pf c.key) c.last_modified c.size c.e_tag none) _
      (fun c hcm => by rw [listContents_tryFrom, hc c hcm]; rfl)
  rw [listResponse_tryFrom_eq, h1, h2]
  rfl

/-- A path parser that accepts every string unchanged. -/
def okParse : String → Except String String := fun s => Except.ok s

theorem list_translation_complete_witness :
    listResponse_tryFrom okParse
        { contents := [⟨"k", 3, 5, some "etag"⟩]
          common_prefixes := [⟨"p"⟩]
          next_continuation_token := none }
      = Except.ok
          { common_prefixes := ["p"]
            objects := [{ location := "k", last_modified := 5, size := 3,
                          e_tag := some "etag", version := none }] } :=
  (list_translation_complete okParse id _ (fun _ _ => rfl) (fun _ _ => rfl)).1

/-- C3: the assembled completion document has exactly one entry per input
part identifier; the entry at 0-based position `i` carries part number
`i + 1` and the `i`-th input part's content id as its entity tag, so part
numbers depend only on position and no deduplication or reordering
occurs. -/
theorem multipart_part_numbers (value : List PartId) :
    (completeMultipartUpload_from value).part.length = value.length ∧
    ∀ (i : Nat) (h1 : i < (completeMultipartUpload_from value).part.length)
      (h2 : i < value.length),
      (completeMultipartUpload_from value).part[i].part_number = i + 1 ∧
      (completeMultipartUpload_from value).part[i].e_tag = value[i].content_id := by
  constructor
  · simp [completeMultipartUpload_from]
  · intro i h1 h2
    simp [completeMultipartUpload_from]

theorem multipart_part_numbers_witness :
    (completeMultipartUpload_from [⟨"a"⟩, ⟨"b"⟩]).part.length = 2 ∧
    (completeMultipartUpload_from [⟨"a"⟩, ⟨"b"⟩]).part[1].part_number = 2 ∧
    (completeMultipartUpload_from [⟨"a"⟩, ⟨"b"⟩]).part[1].e_tag = "b" := by
  have h := multipart_part_numbers [⟨"a"⟩, ⟨"b"⟩]
  exact ⟨h.1, (h.2 1 (by decide) (by decide)).1, (h.2 1 (by decide) (by decide)).2⟩

/-! Helper lemmas about the `HashMap<String, String>` snapshot model. -/

theorem hmAny_eq_true {m : HashMapSS} {k : String} :
    (m.any fun kv => kv.1 = k) = true ↔ k ∈ m.map Prod.fst := by
  simp [List.any_eq_true, List.mem_map]

theorem hmInsert_of_not_mem {m : HashMapSS} {k : String} (v : String)
    (h : k ∉ m.map Prod.fst) : hmInsert m k v = m ++ [(k, v)] := by
  unfold hmInsert
  rw [if_neg]
  intro ha
  exact h (hmAny_eq_true.mp ha)

theorem hm_foldl_eq_append (l : List (String × String)) :
    ∀ acc : HashMapSS, ((acc ++ l).map Prod.fst).Nodup →
      l.foldl (fun m kv => hmInsert m kv.1 kv.2) acc = acc ++ l := by
  induction l with
  | nil => intro acc _; simp
  | cons kv rest ih =>
    intro acc h
    obtain ⟨k, v⟩ := kv
    have hk : k ∉ acc.map Prod.fst := by
      intro hmem
      rw [List.map_append] at h
      have hdis := (List.nodup_append.mp h).2.2
      exact hdis hmem (by simp)
    rw [List.foldl_cons, hmInsert_of_not_mem v hk, ih (acc ++ [(k, v)])
        (by simpa using h)]
    simp

theorem collectHashMap_self (m : HashMapSS) (h : (m.map Prod.fst).Nodup) :
    collectHashMap m = m := by
  have := hm_foldl_eq_append m [] (by simpa using h)
  simpa [collectHashMap] using this

/-- C4: converting a no-duplicate-keys tag map to the wire document and
back yields a map equal as a set of key/value pairs to the original, with
the cardinality preserved exactly. -/
theorem tag_map_roundtrip (m : HashMapSS) (h : (m.map Prod.fst).Nodup) :
    (∀ p, p ∈ hashMap_fromTagging (tagging_fromMap m) ↔ p ∈ m) ∧
    (hashMap_fromTagging (tagging_fromMap m)).length = m.length := by
  have key : hashMap_fromTagging (tagging_fromMap m) = m := by
    unfold hashMap_fromTagging tagging_fromMap
    simp only [List.map_map]
    have : ((fun tag : Tag => (tag.key, tag.value)) ∘
        fun kv : String × String => Tag.mk kv.1 kv.2) = id := by
      funext kv
      rfl
    rw [this, List.map_id]
    exact collectHashMap_self m h
  rw [key]
  exact ⟨fun _ => Iff.rfl, rfl⟩

theorem tag_map_roundtrip_witness :
    ((([("key1", "value1"), ("key2", "value2")] : HashMapSS).map Prod.fst).Nodup) ∧
    (hashMap_fromTagging (tagging_fromMap [("key1", "value1"), ("key2", "value2")])).length
      = ([("key1", "value1"), ("key2", "value2")] : HashMapSS).length :=
  ⟨by decide, (tag_map_roundtrip [("key1", "value1"), ("key2", "value2")] (by decide)).2⟩

theorem find?_map_repl (k : String) (v : String) (k' : String) (hne : k' ≠ k) :
    ∀ m : HashMapSS,
      ((m.map fun kv => if kv.1 = k then (k, v) else kv).find? fun kv => kv.1 = k')
        = m.find? fun kv => kv.1 = k'
  | [] => rfl
  | (k0, v0) :: rest => by
    by_cases hk : k0 = k
    · simp only [List.map_cons, if_pos hk]
      rw [List.find?_cons_of_neg _ (by simp [Ne.symm hne]),
        List.find?_cons_of_neg _ (by simp [hk ▸ Ne.symm hne])]
      exact find?_map_repl k v k' hne rest
    · simp only [List.map_cons, if_neg hk]
      by_cases hk' : k0 = k'
      · rw [List.find?_cons_of_pos _ (by simp [hk']),
          List.find?_cons_of_pos _ (by simp [hk'])]
      · rw [List.find?_cons_of_neg _ (by simp [hk']),
          List.find?_cons_of_neg _ (by simp [hk'])]
        exact find?_map_repl k v k' hne rest

theorem hmGet_hmInsert_self (m : HashMapSS) (k v : String) :
    hmGet (hmInsert m k v) k = some v := by
  unfold hmInsert hmGet
  by_cases ha : (m.any fun kv => kv.1 = k) = true
  · rw [if_pos ha]
    obtain ⟨kv0, hkv0, hpk⟩ := List.any_eq_true.mp ha
    clear ha
    induction m with
    | nil => cases hkv0
    | cons kv1 rest ih =>
      obtain ⟨k1, v1⟩ := kv1
      by_cases hk : k1 = k
      · simp only [List.map_cons, if_pos hk]
        rw [List.find?_cons_of_pos _ (by simp)]
        rfl
      · simp only [List.map_cons, if_neg hk]
        rw [List.find?_cons_of_neg _ (by simp [hk])]
        rcases List.mem_cons.mp hkv0 with h0 | h0
        · exfalso
          apply hk
          have hthis : kv0.1 = k := by simpa using hpk
          rw [h0] at hthis
          exact hthis
        · exact ih h0
  · rw [if_neg ha]
    have hnone : (m.find? fun kv => kv.1 = k) = none := by
      rw [List.find?_eq_none]
      intro x hx hpx
      exact ha (List.any_eq_true.mpr ⟨x, hx, hpx⟩)
    rw [List.find?_append, hnone]
    simp [List.find?]

theorem hmGet_hmInsert_ne (m : HashMapSS) (k v k' : String) (hne : k' ≠ k) :
    hmGet (hmInsert m k v) k' = hmGet m k' := by
  unfold hmInsert hmGet
  by_cases ha : (m.any fun kv => kv.1 = k) = true
  · rw [if_pos ha, find?_map_repl k v k' hne]
  · rw [if_neg ha, List.find?_append]
    have : (([(k, v)] : HashMapSS).find? fun kv => kv.1 = k') = none := by
      rw [List.find?_eq_none]
      intro x hx hpx
      simp at hx
      subst hx
      simp at hpx
      exact hne hpx.symm
    rw [this]
    cases m.find? fun kv => kv.1 = k' <;> rfl

theorem hmGet_foldl (k : String) :
    ∀ (l : List (String × String)) (acc : HashMapSS),
      hmGet (l.foldl (fun m kv => hmInsert m kv.1 kv.2) acc) k =
        match l.reverse.find? fun kv => kv.1 = k with
        | some kv => some kv.2
        | none => hmGet acc k
  | [], acc => by simp
  | (k0, v0) :: rest, acc => by
    rw [List.foldl_cons, hmGet_foldl k rest (hmInsert acc k0 v0),
      List.reverse_cons, List.find?_append]
    cases hr : rest.reverse.find? fun kv => kv.1 = k with
    | some kv => rfl
    | none =>
      by_cases hk : k0 = k
      · subst hk
        rw [List.find?_cons_of_pos _ (by simp)]
        simp [hmGet_hmInsert_self]
      · rw [List.find?_cons_of_neg _ (by simp [hk])]
        simp [hmGet_hmInsert_ne acc k0 v0 k fun h => hk h.symm]

theorem map_fst_hmInsert (m : HashMapSS) (k v : String) :
    (hmInsert m k v).map Prod.fst =
      if (m.any fun kv => kv.1 = k) = true then m.map Prod.fst
      else m.map Prod.fst ++ [k] := by
  unfold hmInsert
  by_cases ha : (m.any fun kv => kv.1 = k) = true
  · rw [if_pos ha, if_pos ha, List.map_map]
    apply List.map_congr_left
    intro kv _
    by_cases hk : kv.1 = k
    · simp [hk, Function.comp]
    · simp [hk, Function.comp]
  · rw [if_neg ha, if_neg ha, List.map_append]
    rfl

theorem mem_keys_foldl (k : String) :
    ∀ (l : List (String × String)) (acc : HashMapSS),
      k ∈ (l.foldl (fun m kv => hmInsert m kv.1 kv.2) acc).map Prod.fst ↔
        k ∈ acc.map Prod.fst ∨ k ∈ l.map Prod.fst
  | [], acc => by simp
  | (k0, v0) :: rest, acc => by
    rw [List.foldl_cons, mem_keys_foldl k rest (hmInsert acc k0 v0),
      map_fst_hmInsert]
    by_cases ha : (acc.any fun kv => kv.1 = k0) = true
    · rw [if_pos ha]
      have hk0 : k0 ∈ acc.map Prod.fst := hmAny_eq_true.mp ha
      simp only [List.map_cons, List.mem_cons]
      constructor
      · rintro (h | h)
        · exact Or.inl h
        · exact Or.inr (Or.inr h)
      · rintro (h | h | h)
        · exact Or.inl h
        · exact Or.inl (h ▸ hk0)
        · exact Or.inr h
    · rw [if_neg ha]
      simp only [List.mem_append, List.map_cons, List.mem_cons,
        List.mem_singleton]
      tauto

theorem nodup_keys_foldl :
    ∀ (l : List (String × String)) (acc : HashMapSS),
      (acc.map Prod.fst).Nodup →
      ((l.foldl (fun m kv => hmInsert m kv.1 kv.2) acc).map Prod.fst).Nodup
  | [], acc, h => h
  | (k0, v0) :: rest, acc, h => by
    rw [List.foldl_cons]
    apply nodup_keys_foldl rest
    rw [map_fst_hmInsert]
    by_cases ha : (acc.any fun kv => kv.1 = k0) = true
    · rw [if_pos ha]; exact h
    · rw [if_neg ha]
      rw [List.nodup_append]
      refine ⟨h, List.nodup_singleton k0, ?_⟩
      intro x hx hx0
      rw [List.mem_singleton] at hx0
      subst hx0
      exact ha (hmAny_eq_true.mpr hx)

/-- C5: the reverse conversion from a tag document to a tag map is total
(no error); for every key the mapped value is the value of the last tag
with that key in document order (last-write-wins), and the result's keys
are exactly the distinct keys of the document, so duplicates silently
collapse. -/
theorem tag_duplicate_last_wins (t : Tagging) :
    (∀ k, hmGet (hashMap_fromTagging t) k =
        (t.list.tags.reverse.find? fun g => g.key = k).map Tag.value) ∧
    ((hashMap_fromTagging t).map Prod.fst).Nodup ∧
    (∀ k, k ∈ (hashMap_fromTagging t).map Prod.fst ↔ k ∈ t.list.tags.map Tag.key) := by
  refine ⟨fun k => ?_, ?_, fun k => ?_⟩
  · unfold hashMap_fromTagging collectHashMap
    rw [hmGet_foldl k, ← List.map_reverse, List.find?_map]
    have hpred : ((fun kv : String × String => decide (kv.1 = k)) ∘ fun tag : Tag =>
        (tag.key, tag.value)) = fun g : Tag => decide (g.key = k) := rfl
    rw [hpred]
    cases t.list.tags.reverse.find? fun g => g.key = k with
    | some g => rfl
    | none => rfl
  · exact nodup_keys_foldl _ [] (by simp)
  · unfold hashMap_fromTagging collectHashMap
    rw [mem_keys_foldl k, List.map_map]
    simp

/-- C6: rendering the S3-dialect tag document for the ordered tag list
`[("key1","value1"), ("key2","value2")]` yields exactly the expected byte
string, and in general every document is the fixed XML declaration
immediately followed by the serialized body, with nothing in between. -/
theorem tagging_xml_exact :
    (Tagging.mk (TagList.mk [Tag.mk "key1" "value1", Tag.mk "key2" "value2"])).to_xml_document
      = "<?xml version=\"1.0\" encoding=\"utf-8\"?><Tagging><TagSet><Tag><Key>key1</Key><Value>value1</Value></Tag><Tag><Key>key2</Key><Value>value2</Value></Tag></TagSet></Tagging>" ∧
    (∀ t : Tagging, t.to_xml_document = xmlHeader ++ taggingBody "Tagging" t) ∧
    (∀ t : Tagging, t.to_xml_document_for_azure = xmlHeader ++ taggingBody "Tags" t) :=
  ⟨rfl, fun _ => rfl, fun _ => rfl⟩

/-- C7: for every tag document the Azure-dialect rendering differs from
the S3-dialect rendering only in the root element name: both wrap the
same inner byte string, under `<Tags>` instead of `<Tagging>`. -/
theorem tagging_xml_dialects (t : Tagging) :
    ∃ inner : String,
      t.to_xml_document = xmlHeader ++ ("<Tagging>" ++ inner ++ "</Tagging>") ∧
      t.to_xml_document_for_azure = xmlHeader ++ ("<Tags>" ++ inner ++ "</Tags>") := by
  refine ⟨t.list.toXml, ?_, ?_⟩
  · show xmlHeader ++ taggingBody "Tagging" t = _
    unfold taggingBody
    rw [show ("<" ++ "Tagging" ++ ">" : String) = "<Tagging>" from rfl]
    simp only [String.append_assoc]
    rfl
  · show xmlHeader ++ taggingBody "Tags" t = _
    unfold taggingBody
    rw [show ("<" ++ "Tags" ++ ">" : String) = "<Tags>" from rfl]
    simp only [String.append_assoc]
    rfl

/-! Helper lemmas about the attribute entry lists. -/

theorem getEntries_nil (k : Attribute) : getEntries [] k = none := rfl

theorem getEntries_cons_pos {k0 : Attribute} {v0 : Option AttributeValue}
    {rest : AttrEntries} {k : Attribute} (hk : k0 = k) :
    getEntries ((k0, v0) :: rest) k = some v0 := by
  unfold getEntries
  rw [List.find?_cons_of_pos _ (by simp [hk])]
  rfl

theorem getEntries_cons_neg {k0 : Attribute} {v0 : Option AttributeValue}
    {rest : AttrEntries} {k : Attribute} (hk : ¬k0 = k) :
    getEntries ((k0, v0) :: rest) k = getEntries rest k := by
  unfold getEntries
  rw [List.find?_cons_of_neg _ (by simp [hk])]

theorem getEntries_eq_none_iff (l : AttrEntries) (k : Attribute) :
    getEntries l k = none ↔ k ∉ l.map Prod.fst := by
  induction l with
  | nil => simp [getEntries]
  | cons kv rest ih =>
    obtain ⟨k0, v0⟩ := kv
    by_cases hk : k0 = k
    · rw [getEntries_cons_pos hk]
      simp [hk]
    · rw [getEntries_cons_neg hk, ih]
      simp only [List.map_cons, List.mem_cons]
      constructor
      · rintro h (h1 | h1)
        · exact hk h1.symm
        · exact h h1
      · intro h h1
        exact h (Or.inr h1)

theorem snd_insertEntries :
    ∀ (l : AttrEntries) (k : Attribute) (v : Option AttributeValue),
      (insertEntries l k v).2 = getEntries l k
  | [], _, _ => rfl
  | (k0, v0) :: rest, k, v => by
    by_cases hk : k0 = k
    · rw [insertEntries, if_pos hk, getEntries_cons_pos hk]
    · rw [insertEntries, if_neg hk]
      show (insertEntries rest k v).2 = _
      rw [getEntries_cons_neg hk]
      exact snd_insertEntries rest k v

theorem getEntries_insertEntries_self :
    ∀ (l : AttrEntries) (k : Attribute) (v : Option AttributeValue),
      getEntries (insertEntries l k v).1 k = some v
  | [], k, v => getEntries_cons_pos rfl
  | (k0, v0) :: rest, k, v => by
    by_cases hk : k0 = k
    · rw [insertEntries, if_pos hk]
      exact getEntries_cons_pos hk
    · rw [insertEntries, if_neg hk]
      show getEntries ((k0, v0) :: (insertEntries rest k v).1) k = some v
      rw [getEntries_cons_neg hk]
      exact getEntries_insertEntries_self rest k v

theorem length_insertEntries_present :
    ∀ (l : AttrEntries) (k : Attribute) (v : Option AttributeValue),
      getEntries l k ≠ none → (insertEntries l k v).1.length = l.length
  | [], k, v, h => absurd rfl h
  | (k0, v0) :: rest, k, v, h => by
    by_cases hk : k0 = k
    · rw [insertEntries, if_pos hk]
      rfl
    · rw [insertEntries, if_neg hk]
      show ((k0, v0) :: (insertEntries rest k v).1).length = _
      rw [getEntries_cons_neg hk] at h
      simp [length_insertEntries_present rest k v h]

theorem insertEntries_absent :
    ∀ (l : AttrEntries) (k : Attribute) (v : Option AttributeValue),
      getEntries l k = none → (insertEntries l k v).1 = l ++ [(k, v)]
  | [], _, _, _ => rfl
  | (k0, v0) :: rest, k, v, h => by
    by_cases hk : k0 = k
    · rw [getEntries_cons_pos hk] at h
      cases h
    · rw [insertEntries, if_neg hk]
      rw [getEntries_cons_neg hk] at h
      show (k0, v0) :: (insertEntries rest k v).1 = _
      rw [insertEntries_absent rest k v h]
      rfl

theorem mem_map_fst_insertEntries :
    ∀ (l : AttrEntries) (k : Attribute) (v : Option AttributeValue) (x : Attribute),
      x ∈ (insertEntries l k v).1.map Prod.fst ↔ x ∈ l.map Prod.fst ∨ x = k
  | [], k, v, x => by simp [insertEntries]
  | (k0, v0) :: rest, k, v, x => by
    by_cases hk : k0 = k
    · rw [insertEntries, if_pos hk]
      subst hk
      simp only [List.map_cons, List.mem_cons]
      tauto
    · rw [insertEntries, if_neg hk]
      show x ∈ ((k0, v0) :: (insertEntries rest k v).1).map Prod.fst ↔ _
      simp only [List.map_cons, List.mem_cons,
        mem_map_fst_insertEntries rest k v x]
      tauto

theorem nodup_insertEntries (l : AttrEntries) (k : Attribute)
    (v : Option AttributeValue) (h : (l.map Prod.fst).Nodup) :
    ((insertEntries l k v).1.map Prod.fst).Nodup := by
  induction l with
  | nil => simp [insertEntries]
  | cons kv rest ih =>
    obtain ⟨k0, v0⟩ := kv
    rw [List.map_cons, List.nodup_cons] at h
    by_cases hk : k0 = k
    · rw [insertEntries, if_pos hk]
      rw [List.map_cons, List.nodup_cons]
      exact h
    · rw [insertEntries, if_neg hk]
      show (((k0, v0) :: (insertEntries rest k v).1).map Prod.fst).Nodup
      rw [List.map_cons, List.nodup_cons]
      refine ⟨?_, ih h.2⟩
      rw [mem_map_fst_insertEntries]
      rintro (hmem | rfl)
      · exact h.1 hmem
      · exact hk rfl

theorem snd_removeEntries :
    ∀ (l : AttrEntries) (k : Attribute), (removeEntries l k).2 = getEntries l k
  | [], _ => rfl
  | (k0, v0) :: rest, k => by
    by_cases hk : k0 = k
    · rw [removeEntries, if_pos hk, getEntries_cons_pos hk]
    · rw [removeEntries, if_neg hk]
      show (removeEntries rest k).2 = _
      rw [getEntries_cons_neg hk]
      exact snd_removeEntries rest k

theorem removeEntries_absent :
    ∀ (l : AttrEntries) (k : Attribute),
      getEntries l k = none → removeEntries l k = (l, none)
  | [], _, _ => rfl
  | (k0, v0) :: rest, k, h => by
    by_cases hk : k0 = k
    · rw [getEntries_cons_pos hk] at h
      cases h
    · rw [getEntries_cons_neg hk] at h
      rw [removeEntries, if_neg hk, removeEntries_absent rest k h]

theorem length_removeEntries_present :
    ∀ (l : AttrEntries) (k : Attribute),
      getEntries l k ≠ none → (removeEntries l k).1.length + 1 = l.length
  | [], k, h => absurd rfl h
  | (k0, v0) :: rest, k, h => by
    by_cases hk : k0 = k
    · rw [removeEntries, if_pos hk]
      rfl
    · rw [removeEntries, if_neg hk]
      rw [getEntries_cons_neg hk] at h
      show ((k0, v0) :: (removeEntries rest k).1).length + 1 = _
      simp [← length_removeEntries_present rest k h]

theorem removeEntries_sublist :
    ∀ (l : AttrEntries) (k : Attribute), (removeEntries l k).1.Sublist l
  | [], _ => List.Sublist.refl []
  | (k0, v0) :: rest, k => by
    by_cases hk : k0 = k
    · rw [removeEntries, if_pos hk]
      exact (List.Sublist.refl rest).cons (k0, v0)
    · rw [removeEntries, if_neg hk]
      exact (removeEntries_sublist rest k).cons₂ (k0, v0)

theorem getEntries_removeEntries :
    ∀ (l : AttrEntries) (k : Attribute), (l.map Prod.fst).Nodup →
      getEntries (removeEntries l k).1 k = none
  | [], _, _ => rfl
  | (k0, v0) :: rest, k, h => by
    rw [List.map_cons, List.nodup_cons] at h
    by_cases hk : k0 = k
    · rw [removeEntries, if_pos hk]
      rw [getEntries_eq_none_iff]
      subst hk
      exact h.1
    · rw [removeEntries, if_neg hk]
      show getEntries ((k0, v0) :: (removeEntries rest k).1) k = none
      rw [getEntries_cons_neg hk]
      exact getEntries_removeEntries rest k h.2

theorem getEntries_of_mem_nodup :
    ∀ {l : AttrEntries}, (l.map Prod.fst).Nodup →
      ∀ {kv : Attribute × Option AttributeValue}, kv ∈ l →
        getEntries l kv.1 = some kv.2 := by
  intro l
  induction l with
  | nil => intro _ kv h; cases h
  | cons kv0 rest ih =>
    intro h kv hmem
    obtain ⟨k0, v0⟩ := kv0
    rw [List.map_cons, List.nodup_cons] at h
    rcases List.mem_cons.mp hmem with heq | htail
    · subst heq
      exact getEntries_cons_pos rfl
    · by_cases hk : k0 = kv.1
      · exfalso
        apply h.1
        rw [hk]
        exact List.mem_map.mpr ⟨kv, htail, rfl⟩
      · rw [getEntries_cons_neg hk]
        exact ih h.2 htail

theorem optValRustEq_refl (o : Option AttributeValue) : optValRustEq o o = true := by
  cases o with
  | none => rfl
  | some a => simp [optValRustEq, AttributeValue.rustEq]

theorem attr_foldl_entries (l : List (Attribute × Option AttributeValue)) :
    ∀ es : AttrEntries,
      (l.foldl (fun (a : Attributes) kv => (a.insert kv.1 kv.2).1) ⟨es⟩).entries =
        l.foldl (fun es kv => (insertEntries es kv.1 kv.2).1) es := by
  induction l with
  | nil => intro es; rfl
  | cons kv rest ih =>
    intro es
    rw [List.foldl_cons, List.foldl_cons]
    exact ih ((insertEntries es kv.1 kv.2).1)

theorem attr_foldl_eq_append (l : List (Attribute × Option AttributeValue)) :
    ∀ es : AttrEntries, ((es ++ l).map Prod.fst).Nodup →
      l.foldl (fun es kv => (insertEntries es kv.1 kv.2).1) es = es ++ l := by
  induction l with
  | nil => intro es _; simp
  | cons kv rest ih =>
    intro es h
    obtain ⟨k, v⟩ := kv
    have hk : k ∉ es.map Prod.fst := by
      intro hmem
      rw [List.map_append] at h
      have hdis := (List.nodup_append.mp h).2.2
      exact hdis hmem (by simp)
    rw [List.foldl_cons,
      insertEntries_absent es k v ((getEntries_eq_none_iff es k).mpr hk),
      ih (es ++ [(k, v)]) (by simpa using h)]
    simp

theorem fromList_entries (l : AttrEntries) (h : (l.map Prod.fst).Nodup) :
    (Attributes.fromList l).entries = l := by
  unfold Attributes.fromList
  show (l.foldl (fun (a : Attributes) kv => (a.insert kv.1 kv.2).1) ⟨[]⟩).entries = l
  rw [attr_foldl_entries l []]
  exact attr_foldl_eq_append l [] (by simpa using h)

/-- C8: the attribute collection preserves three-state semantics: `len` is
the number of distinct keys whatever their values; `insert` returns the
previous optional value (`none` only for a fresh key), keeps `len` for an
existing key, grows it by one for a fresh key, and leaves the key mapped
to the new optional value, so a present-but-unset key (`some none`) stays
distinguishable from an absent one (`none`); `remove` returns the previous
optional value, shrinks `len` by exactly one for a present key, leaves the
key absent afterwards, and is a no-op returning `none` for an absent key.
The hash-map invariant `Wf` is preserved by both mutations. -/
theorem attributes_three_state (a : Attributes) (k : Attribute)
    (v ov : Option AttributeValue) (hw : a.Wf) :
    a.len = (a.entries.map Prod.fst).dedup.length ∧
    (a.insert k v).1.Wf ∧
    (a.remove k).1.Wf ∧
    (a.insert k v).2 = a.get k ∧
    (a.insert k v).1.get k = some v ∧
    (a.get k ≠ none → (a.insert k v).1.len = a.len) ∧
    (a.get k = none → (a.insert k v).1.len = a.len + 1) ∧
    (a.remove k).2 = a.get k ∧
    (a.get k = some ov → (a.remove k).1.len + 1 = a.len) ∧
    (a.remove k).1.get k = none ∧
    (a.get k = none → a.remove k = (a, none)) := by
  refine ⟨?_, ?_, ?_, ?_, ?_, ?_, ?_, ?_, ?_, ?_, ?_⟩
  · rw [List.Nodup.dedup hw, List.length_map]
    rfl
  · exact nodup_insertEntries a.entries k v hw
  · exact List.Nodup.sublist (List.Sublist.map Prod.fst (removeEntries_sublist a.entries k)) hw
  · exact snd_insertEntries a.entries k v
  · exact getEntries_insertEntries_self a.entries k v
  · intro h
    exact length_insertEntries_present a.entries k v h
  · intro h
    show (insertEntries a.entries k v).1.length = a.entries.length + 1
    rw [insertEntries_absent a.entries k v h]
    simp
  · exact snd_removeEntries a.entries k
  · intro h
    apply length_removeEntries_present a.entries k
    show a.get k ≠ none
    rw [h]
    exact fun hh => by cases hh
  · exact getEntries_removeEntries a.entries k hw
  · intro h
    show (⟨(removeEntries a.entries k).1⟩, (removeEntries a.entries k).2) = (a, none)
    rw [removeEntries_absent a.entries k h]

theorem attributes_three_state_witness :
    ((Attributes.mk [(Attribute.contentType, some (AttributeValue.fromStaticStr "x"))]).insert
        Attribute.contentType none).2 = some (some (AttributeValue.fromStaticStr "x")) ∧
    ((Attributes.mk [(Attribute.contentType, some (AttributeValue.fromStaticStr "x"))]).insert
        Attribute.contentType none).1.get Attribute.contentType = some none ∧
    ((Attributes.mk [(Attribute.contentType, some (AttributeValue.fromStaticStr "x"))]).remove
        Attribute.contentType).1.len + 1
      = (Attributes.mk [(Attribute.contentType, some (AttributeValue.fromStaticStr "x"))]).len := by
  obtain ⟨-, -, -, h4, h5, -, -, -, h9, -, -⟩ :=
    attributes_three_state
      (Attributes.mk [(Attribute.contentType, some (AttributeValue.fromStaticStr "x"))])
      Attribute.contentType none (some (AttributeValue.fromStaticStr "x")) (by decide)
  refine ⟨?_, h5, h9 (by decide)⟩
  rw [h4]
  decide

/-- C9: `AttributeValue` equality, hashing and exposed string content are
functions of the contained text only, irrespective of storage mode: a
value built from a static string and one built from an owned string with
the same text compare equal, hash identically under any hasher, and
dereference to the same text; in general two values compare equal exactly
when their texts agree. -/
theorem attribute_value_text_only :
    (∀ s : String,
      AttributeValue.rustEq (AttributeValue.fromStaticStr s) (AttributeValue.fromString s)
        = true ∧
      (∀ hasher : String → UInt64,
        AttributeValue.rustHash hasher (AttributeValue.fromStaticStr s)
          = AttributeValue.rustHash hasher (AttributeValue.fromString s)) ∧
      (AttributeValue.fromStaticStr s).asRef = s ∧
      (AttributeValue.fromString s).asRef = s) ∧
    (∀ a b : AttributeValue, AttributeValue.rustEq a b = true ↔ a.asRef = b.asRef) := by
  constructor
  · intro s
    refine ⟨?_, fun _ => rfl, rfl, rfl⟩
    simp [AttributeValue.rustEq, AttributeValue.asRef, AttributeValue.fromStaticStr,
      AttributeValue.fromString, CowStr.asStr]
  · intro a b
    simp [AttributeValue.rustEq]

/-- C10 counterexample: inserting the same two (key, optional value) pairs
in the two possible orders does not always yield collections that compare
equal: with a duplicate key and two different values, last-write-wins
leaves different values, and the derived equality distinguishes them. -/
theorem attributes_eq_order_counterexample :
    [(Attribute.contentType, some (AttributeValue.fromStaticStr "a")),
        (Attribute.contentType, some (AttributeValue.fromStaticStr "b"))].Perm
      [(Attribute.contentType, some (AttributeValue.fromStaticStr "b")),
        (Attribute.contentType, some (AttributeValue.fromStaticStr "a"))] ∧
    Attributes.rustEq
        (Attributes.fromList
          [(Attribute.contentType, some (AttributeValue.fromStaticStr "a")),
            (Attribute.contentType, some (AttributeValue.fromStaticStr "b"))])
        (Attributes.fromList
          [(Attribute.contentType, some (AttributeValue.fromStaticStr "b")),
            (Attribute.contentType, some (AttributeValue.fromStaticStr "a"))])
      = false :=
  ⟨List.Perm.swap _ _ _, by decide⟩

/-- C10 (amended): equality of two attribute collections depends only on
the key-to-optional-value mapping, not on insertion order: inserting the
same (key, optional value) pairs, with pairwise distinct keys, in any two
different orders yields collections that compare equal. -/
theorem attributes_eq_order_amended (l l' : AttrEntries)
    (hnd : (l.map Prod.fst).Nodup) (hperm : l.Perm l') :
    Attributes.rustEq (Attributes.fromList l) (Attributes.fromList l') = true := by
  have hnd' : (l'.map Prod.fst).Nodup := (hperm.map Prod.fst).nodup_iff.mp hnd
  have hl : (Attributes.fromList l).entries = l := fromList_entries l hnd
  have hl' : (Attributes.fromList l').entries = l' := fromList_entries l' hnd'
  unfold Attributes.rustEq
  rw [Bool.and_eq_true]
  constructor
  · show ((Attributes.fromList l).entries.length == (Attributes.fromList l').entries.length)
      = true
    rw [hl, hl', hperm.length_eq]
    simp
  · rw [List.all_eq_true]
    intro kv hkv
    rw [hl] at hkv
    have hmem' : kv ∈ l' := hperm.subset hkv
    show (match (Attributes.fromList l').get kv.1 with
      | some ov => optValRustEq kv.2 ov
      | none => false) = true
    show (match getEntries (Attributes.fromList l').entries kv.1 with
      | some ov => optValRustEq kv.2 ov
      | none => false) = true
    rw [hl', getEntries_of_mem_nodup hnd' hmem']
    exact optValRustEq_refl kv.2

theorem attributes_eq_order_amended_witness :
    Attributes.rustEq
        (Attributes.fromList
          [(Attribute.contentType, some (AttributeValue.fromStaticStr "a")),
            (Attribute.cacheControl, none)])
        (Attributes.fromList
          [(Attribute.cacheControl, none),
            (Attribute.contentType, some (AttributeValue.fromStaticStr "a"))])
      = true :=
  attributes_eq_order_amended _ _ (by decide) (by decide)

end ObjectStore
